import Mathlib

/-!
Verification of the HMM kernel `sktime/markovprocess/bhmm/hidden/api.py`.

The kernel's entry points (`forward`, `backward`, `state_probabilities`,
`state_counts`, `transition_counts`, `viterbi`, `sample_path`) are embedded
below over exact rationals.  A numpy `ndarray((T,N))` is a rectangular
`List (List ℚ)` (list of rows); machine floats carry no claim here, all the
claims under study are about shapes, validation, cache state and exact
algebraic identities, which the rational embedding preserves.

The module `api.py` delegates the numeric recursions to `from . import
hidden as _impl`; that implementation module is not part of the sources
under verification, so the `impl*` definitions below are modelled from the
specification (each carries a doc comment saying so).  Everything else is a
line-by-line translation of `api.py`.
-/

namespace BhmmHidden

/-- The Python exception classes the kernel's calls can surface:
`TypeError` (raised explicitly in `forward`, and by Python itself when
`None` is compared to an `int`), `ValueError` (raised by the other
operations' validations and by numpy on shape mismatches), `IndexError`
(out-of-range array indexing). -/
inductive PyErr where
  | typeError
  | valueError
  | indexError
deriving DecidableEq, Repr

/-- One row of a 2-D float array. -/
abbrev Row := List ℚ

/-- A 2-D float array, as its list of rows (rectangular by construction in
numpy; theorems carry the rectangularity hypotheses they need). -/
abbrev Mat := List Row

/-- Read `row[i]` (out of range reads 0; theorems stay in range). -/
def qget (xs : Row) (i : ℕ) : ℚ := xs.getD i 0

/-- Read `m[t, i]`. -/
def mget (m : Mat) (t i : ℕ) : ℚ := qget (m.getD t []) i

/-- Column count `m.shape[1]` of a 2-D array. -/
def matCols (m : Mat) : ℕ := (m.headD []).length

/-- Broadcast a 2-D operand to the output shape `n × k`: a dimension must
match or be 1 (numpy's ufunc broadcasting rule). `none` when the operand
cannot be broadcast. -/
def bcastTo (mat : Mat) (n k : ℕ) : Option Mat :=
  (if mat.length = n then some mat
   else if mat.length = 1 then some (List.replicate n (mat.headD []))
   else none).bind fun rows =>
    if rows.all fun r => r.length = k then some rows
    else if rows.all fun r => r.length = 1 then
      some (rows.map fun r => List.replicate k (r.headD 0))
    else none

/-- A broadcast dimension of two input operands. -/
def bdim (x y : ℕ) : Option ℕ :=
  if x = y then some x
  else if x = 1 then some y
  else if y = 1 then some x
  else none

/-- Elementwise product of two equally-shaped (after broadcast) arrays:
`a * b` in numpy.  A shape mismatch raises `ValueError`. -/
def npMultiply (a b : Mat) : Except PyErr Mat :=
  match bdim a.length b.length, bdim (matCols a) (matCols b) with
  | some n, some k =>
    match bcastTo a n k, bcastTo b n k with
    | some a', some b' =>
      .ok (List.zipWith (fun r s => List.zipWith (· * ·) r s) a' b')
    | _, _ => .error .valueError
  | _, _ => .error .valueError

/-- Model of `np.multiply(a, b, out)`: the inputs must broadcast to `out`'s shape;
the product is written into (and returned as) that shape. -/
def npMultiplyOut (a b out : Mat) : Except PyErr Mat :=
  match bcastTo a out.length (matCols out), bcastTo b out.length (matCols out) with
  | some a', some b' =>
    .ok (List.zipWith (fun r s => List.zipWith (· * ·) r s) a' b')
  | _, _ => .error .valueError

/-- Model of `np.dot(g, ones)` with `ones` a column vector: the column of row sums
`g · ones`; the inner dimensions must agree. -/
def npDotOnes (g : Mat) (ones : Row) : Except PyErr (List ℚ) :=
  if g.all fun r => r.length = ones.length then
    .ok (g.map fun r => (List.zipWith (· * ·) r ones).sum)
  else .error .valueError

/-- The module-level cache of `api.py` (lines 107-109): the lazily rebuilt
all-ones column `_ones` and its recorded size `_ones_size`.  Python's
initial `_ones = None` is the empty list here, paired with size 0. -/
structure OnesCache where
  ones : Row
  size : ℕ
deriving DecidableEq, Repr

/-- The module's state at import time: `_ones = None`, `_ones_size = 0`. -/
def initCache : OnesCache := ⟨[], 0⟩

/-- A cache the module itself can produce: the ones vector matches the
recorded size (true at import time and preserved by every call). -/
def CacheOk (st : OnesCache) : Prop := st.ones = List.replicate st.size 1

/-- Lines 140-144 of `api.py`: rebuild the cached ones column whenever the
recorded size differs from `alpha.shape[1]`. -/
def refreshOnes (st : OnesCache) (n : ℕ) : OnesCache :=
  if st.size ≠ n then ⟨List.replicate n 1, n⟩ else st

/-- Lines 164-165 of `api.py`: `np.divide(g, np.dot(g, _ones), out=g)` —
divide every row by its sum, the sum taken by the ones-column product. -/
def normalizeRows (st : OnesCache) (g : Mat) : Except PyErr Mat :=
  match npDotOnes g st.ones with
  | .error e => .error e
  | .ok sums => .ok (List.zipWith (fun r s => r.map (· / s)) g sums)

/-- Translation of `state_probabilities(alpha, beta, T=None, gamma_out=None)`, `api.py`
(lines 112-167), threaded through the module cache: first the ones cache is
refreshed against `alpha.shape[1]`, then the row counts of `alpha` and
`beta` are compared (`ValueError` on mismatch), then `T` is resolved
(explicit argument, else `gamma_out`'s rows, else `alpha`'s rows), then the
elementwise product is formed (truncated to `T` rows when no buffer is
given and `T` is smaller; multiplied into the buffer otherwise) and row
normalized. -/
def state_probabilities (st : OnesCache) (alpha beta : Mat)
    (T? : Option ℕ) (gammaOut? : Option Mat) :
    OnesCache × Except PyErr Mat :=
  let st' := refreshOnes st (matCols alpha)
  if alpha.length ≠ beta.length then (st', .error .valueError)
  else
    let T := match T?, gammaOut? with
      | some t, _ => t
      | none, none => alpha.length
      | none, some g => g.length
    let res := match gammaOut? with
      | none =>
        match npMultiply alpha beta with
        | .error e => .error e
        | .ok g0 => normalizeRows st' (if T < g0.length then g0.take T else g0)
      | some buf =>
        if buf.length < alpha.length then
          match npMultiplyOut (alpha.take T) (beta.take T) buf with
          | .error e => .error e
          | .ok g0 => normalizeRows st' g0
        else
          match npMultiplyOut alpha beta buf with
          | .error e => .error e
          | .ok g0 => normalizeRows st' g0
    (st', res)

/-- Translation of `state_counts(gamma, T)`, `api.py` lines 170-190:
`np.sum(gamma[0:T], axis=0)`, the column-wise sum of the first `T` rows. -/
def state_counts (gamma : Mat) (T : ℕ) : Row :=
  (gamma.take T).foldr (fun r acc => List.zipWith (· + ·) r acc)
    (List.replicate (matCols gamma) 0)

/-- Modelled from the spec: the scaled forward recursion of the missing
implementation module (`_impl.forward`, spec 4.1) on the first `T` rows,
given the already-normalized previous row `prev`:
`alpha[t,i] = pobs[t,i] * sum_j alpha[t-1,j] * A[j,i]`, each row divided by
its sum right after computation; the pre-normalization row sums are
multiplied into the returned likelihood (the spec's log-likelihood is the
log of that product; over exact rationals the scale product itself is
kept, log being order- and equality-faithful). -/
def forwardRec (A : Mat) (N : ℕ) (prev : Row) : List Row → ℚ × List Row
  | [] => (1, [])
  | r :: rest =>
    let raw := (List.range N).map fun i =>
      qget r i * ((List.range N).map fun j => qget prev j * mget A j i).sum
    let s := raw.sum
    let row := raw.map (· / s)
    let next := forwardRec A N row rest
    (s * next.1, row :: next.2)

/-- Modelled from the spec: `_impl.forward(A, pobs, pi, alpha, T, N)`, the
implementation behind `api.forward`, absent from the sources (spec 4.1).
Its trajectory length is an integer count of steps driving the recursion
(`alpha[0,i] = pi[i] * pobs[0,i]`, then `forwardRec`), so a `None` length
cannot drive it and surfaces as Python's `TypeError` for using `None`
where an integer is required. -/
def implForward (A pobs : Mat) (pi : Row) (T? : Option ℕ) (N : ℕ) :
    Except PyErr (ℚ × Mat) :=
  match T? with
  | none => .error .typeError
  | some T =>
    match pobs.take T with
    | [] => .ok (1, [])
    | r0 :: rest =>
      let raw := (List.range N).map fun i => qget pi i * qget r0 i
      let s := raw.sum
      let row := raw.map (· / s)
      let next := forwardRec A N row rest
      .ok (s * next.1, row :: next.2)

/-- Translation of `forward(A, pobs, pi, T=None, alpha=None)`, `api.py`
lines 34-70.  Line 61 of the source assigns the default trajectory length
to a dead local `T_`, so an omitted `T` stays `None`: the caller-buffer
bound check then compares `None > int` (Python raises `TypeError`), and
without a buffer `None` is handed to the implementation. -/
def forward (A pobs : Mat) (pi : Row) (T? : Option ℕ)
    (alphaBuf? : Option Mat) : Except PyErr (ℚ × Mat) :=
  match T? with
  | some t =>
    if t > pobs.length then .error .typeError
    else
      match alphaBuf? with
      | none => implForward A pobs pi (some t) A.length
      | some buf =>
        if t > buf.length then .error .typeError
        else implForward A pobs pi (some t) A.length
  | none =>
    match alphaBuf? with
    | none => implForward A pobs pi none A.length
    | some _ => .error .typeError

/-- Modelled from the spec: the scaled backward recursion of the missing
implementation module (spec 4.2): `beta[T-1,:]` a normalized constant row,
`beta[t,i] = sum_j A[i,j] * pobs[t+1,j] * beta[t+1,j]` from `t = T-2` down
to 0, each row divided by its sum. -/
def backRec (A : Mat) (N : ℕ) : List Row → List Row
  | [] => []
  | _ :: rest =>
    match backRec A N rest, rest with
    | bnext :: btail, rnext :: _ =>
      let raw := (List.range N).map fun i =>
        ((List.range N).map fun j => mget A i j * qget rnext j * qget bnext j).sum
      raw.map (· / raw.sum) :: bnext :: btail
    | _, _ => [List.replicate N ((1 : ℚ) / N)]

/-- Modelled from the spec: `_impl.backward(A, pobs, T, N, beta)` of the
missing implementation module, the backward pass over the first `T`
observation rows (spec 4.2). -/
def implBackward (A pobs : Mat) (T N : ℕ) : Mat :=
  backRec A N (pobs.take T)

/-- Translation of `backward(A, pobs, T=None, beta_out=None)`, `api.py`
lines 73-104: `T` defaults to `len(pobs)`, may not exceed it, and may not
exceed a caller-supplied buffer's length; both violations raise
`ValueError`. -/
def backward (A pobs : Mat) (T? : Option ℕ) (betaBuf? : Option Mat) :
    Except PyErr Mat :=
  match T? with
  | some t =>
    if t > pobs.length then .error .valueError
    else
      match betaBuf? with
      | none => .ok (implBackward A pobs t A.length)
      | some buf =>
        if t > buf.length then .error .valueError
        else .ok (implBackward A pobs t A.length)
  | none =>
    match betaBuf? with
    | none => .ok (implBackward A pobs pobs.length A.length)
    | some buf =>
      if pobs.length > buf.length then .error .valueError
      else .ok (implBackward A pobs pobs.length A.length)

/-- Modelled from the spec: `_impl.transition_counts` of the missing
implementation module (spec 4.4):
`counts[i,j] = sum_t alpha[t,i] * A[i,j] * pobs[t+1,j] * beta[t+1,j]` over
`t = 0 .. T-2`, normalized so the whole matrix sums to 1. -/
def implTransitionCounts (alpha beta A pobs : Mat) (T N : ℕ) : Mat :=
  let raw := (List.range N).map fun i => (List.range N).map fun j =>
    ((List.range (T - 1)).map fun t =>
      mget alpha t i * mget A i j * mget pobs (t + 1) j * mget beta (t + 1) j).sum
  let tot := (raw.map List.sum).sum
  raw.map fun r => r.map (· / tot)

/-- Translation of `transition_counts(alpha, beta, A, pobs, T=None, out=None)`,
`api.py` lines 193-232: `T` defaults to `pobs.shape[0]` and may not exceed
it (`ValueError`). -/
def transition_counts (alpha beta A pobs : Mat) (T? : Option ℕ) :
    Except PyErr Mat :=
  match T? with
  | some t =>
    if t > pobs.length then .error .valueError
    else .ok (implTransitionCounts alpha beta A pobs t A.length)
  | none => .ok (implTransitionCounts alpha beta A pobs pobs.length A.length)

/-- Maximum of `f` over `0 .. n-1` (0 when `n = 0`). -/
def maxF (f : ℕ → ℚ) : ℕ → ℚ
  | 0 => 0
  | 1 => f 0
  | n + 2 => max (maxF f (n + 1)) (f (n + 1))

/-- Lowest index attaining `maxF f n` (spec 4.5 requires the deterministic
lowest-index tie break). -/
def argmaxF (f : ℕ → ℚ) : ℕ → ℕ
  | 0 => 0
  | 1 => 0
  | n + 2 => if maxF f (n + 1) < f (n + 1) then n + 1 else argmaxF f (n + 1)

/-- One Viterbi step (spec 4.5): from the previous best-score row `delta`,
the scores `delta'[i] = pobs[t,i] * max_j delta[j] * A[j,i]` and the
backpointer row `psi[i] = argmax_j delta[j] * A[j,i]`, the new table
consed onto the accumulated ones (most recent first). -/
def vstep (A : Mat) (N : ℕ) (dp : List ℚ × List (List ℕ)) (r : Row) :
    List ℚ × List (List ℕ) :=
  ((List.range N).map fun i =>
      qget r i * maxF (fun j => qget dp.1 j * mget A j i) N,
   ((List.range N).map fun i => argmaxF (fun j => qget dp.1 j * mget A j i) N)
     :: dp.2)

/-- Backtracking through the backpointer tables (most recent first),
starting from the final state `i`; the path comes out reversed. -/
def revTrace : List (List ℕ) → ℕ → List ℕ
  | [], i => [i]
  | ψ :: rest, i => i :: revTrace rest (ψ.getD i 0)

/-- Modelled from the spec: `_impl.viterbi(A, pobs, pi, path, T, N)` of the
missing implementation module (spec 4.5): the dynamic program
`delta[0,i] = pi[i] * pobs[0,i]`, `delta[t,i] = pobs[t,i] * max_j
delta[t-1,j] * A[j,i]` with lowest-index-tie backpointers, backtracked from
the argmax at `T-1`.  The spec allows running it in probability space;
over exact rationals no scaling or log is needed. -/
def implViterbi (A pobs : Mat) (pi : Row) (N : ℕ) : List ℕ :=
  match pobs with
  | [] => []
  | r0 :: rest =>
    let d0 := (List.range N).map fun i => qget pi i * qget r0 i
    let dp := rest.foldl (vstep A N) (d0, [])
    (revTrace dp.2 (argmaxF (fun i => qget dp.1 i) N)).reverse

/-- Translation of `viterbi(A, pobs, pi)`, `api.py` lines 235-258:
`T = len(pobs)`, `N = len(A)`, result delegated to the implementation. -/
def viterbi (A pobs : Mat) (pi : Row) : List ℕ :=
  implViterbi A pobs pi A.length

/-- Categorical draw helper: the index whose cumulative weight first
exceeds `x`. -/
def catGo : List ℚ → ℚ → ℕ
  | [], _ => 0
  | w :: rest, x => if x < w then 0 else catGo rest (x - w) + 1

/-- Draw from the categorical distribution with (un-normalized) weights
`ws`, using the uniform draw `u` from `[0,1)`. -/
def catSample (ws : List ℚ) (u : ℚ) : ℕ := catGo ws (u * ws.sum)

/-- Backward sampling walk (spec 4.6): given the state `cur` drawn for time
`t`, draw the state for `t-1` from weights `alpha[t-1,j] * A[j,cur]` and
continue down to time 0; `rand k` is the uniform draw used at time `k`. -/
def sampleWalk (rand : ℕ → ℚ) (alpha A : Mat) (N : ℕ) :
    ℕ → ℕ → List ℕ
  | 0, cur => [cur]
  | t + 1, cur =>
    let prev := catSample
      ((List.range N).map fun j => mget alpha t j * mget A j cur) (rand t)
    sampleWalk rand alpha A N t prev ++ [cur]

/-- Modelled from the spec: `_impl.sample_path(alpha, A, pobs, path, T, N)`
of the missing implementation module (spec 4.6): the final state is drawn
from `alpha[T-1,:]` as a categorical distribution, then the walk samples
predecessors backwards.  The spec requires the randomness source to be
injectable; `rand` is that source.  Reading `alpha[T-1]` when `alpha` has
fewer rows is Python's `IndexError`. -/
def implSamplePath (rand : ℕ → ℚ) (alpha A : Mat) (T N : ℕ) :
    Except PyErr (List ℕ) :=
  if T = 0 then .ok []
  else if T - 1 < alpha.length then
    .ok (sampleWalk rand alpha A N (T - 1)
      (catSample (alpha.getD (T - 1) []) (rand (T - 1))))
  else .error .indexError

/-- Translation of `sample_path(alpha, A, pobs, T=None)`, `api.py` lines
261-288: `N = pobs.shape[1]`; `T` defaults to `pobs.shape[0]`; an explicit
`T` exceeding `pobs`' or `alpha`'s row count raises `ValueError`. -/
def sample_path (rand : ℕ → ℚ) (alpha A pobs : Mat) (T? : Option ℕ) :
    Except PyErr (List ℕ) :=
  match T? with
  | some t =>
    if t > pobs.length ∨ t > alpha.length then .error .valueError
    else implSamplePath rand alpha A t (matCols pobs)
  | none => implSamplePath rand alpha A pobs.length (matCols pobs)

/-- Probability of a hidden-path continuation: starting in state `prev`,
against the remaining observation rows, the product of the
`A[prev, q] * pobs[t, q]` factors (1 for the exhausted path, 0 on a length
mismatch). -/
def tailProb (A : Mat) : ℕ → List Row → List ℕ → ℚ
  | _, [], [] => 1
  | prev, r :: rs, s :: qs => mget A prev s * qget r s * tailProb A s rs qs
  | _, _, _ => 0

/-- Joint path probability of C8:
`pi[q0] * pobs[0,q0] * prod_t A[q(t-1),q(t)] * pobs[t,q(t)]` of the state
sequence `q` against the observation rows (1 for the empty trajectory,
0 on a length mismatch). -/
def pathProb (pi : Row) (A : Mat) : List Row → List ℕ → ℚ
  | [], [] => 1
  | r :: rs, s :: qs => qget pi s * qget r s * tailProb A s rs qs
  | _, _ => 0

/-- Invariant of the Viterbi dynamic program after consuming the rows
`done`: every admissible path's probability is bounded by the score of its
final state (upper bound), and backtracking from any state `i` yields an
admissible path ending at `i` whose probability attains the score
(achievability). -/
def VitInv (pi : Row) (A : Mat) (N : ℕ) (done : List Row)
    (dp : List ℚ × List (List ℕ)) : Prop :=
  (∀ q : List ℕ, q.length = done.length → (∀ s ∈ q, s < N) →
    pathProb pi A done q ≤ qget dp.1 (q.getLast?.getD 0)) ∧
  (∀ i, i < N →
    (revTrace dp.2 i).reverse.length = done.length ∧
    (∀ s ∈ (revTrace dp.2 i).reverse, s < N) ∧
    (revTrace dp.2 i).reverse.getLast?.getD 0 = i ∧
    pathProb pi A done ((revTrace dp.2 i).reverse) = qget dp.1 i)

/-! Helper lemmas. -/

theorem getD_replicate_zero (N i : ℕ) (h : i < N) :
    (List.replicate N (0 : ℚ)).getD i 0 = 0 := by
  induction N generalizing i with
  | zero => omega
  | succ n ih =>
    cases i with
    | zero => rfl
    | succ j => exact ih j (by omega)

theorem getD_zipWith_add (xs ys : Row) (i : ℕ)
    (hx : i < xs.length) (hy : i < ys.length) :
    (List.zipWith (· + ·) xs ys).getD i 0 = xs.getD i 0 + ys.getD i 0 := by
  induction xs generalizing ys i with
  | nil => simp at hx
  | cons x xs ih =>
    cases ys with
    | nil => simp at hy
    | cons y ys =>
      cases i with
      | zero => rfl
      | succ j =>
        simp only [List.zipWith_cons_cons, List.getD_cons_succ]
        exact ih ys j (by simpa using hx) (by simpa using hy)

theorem colsum_fold (N : ℕ) :
    ∀ rs : Mat, (∀ r ∈ rs, r.length = N) →
      (rs.foldr (fun r acc => List.zipWith (· + ·) r acc)
          (List.replicate N (0 : ℚ))).length = N ∧
      ∀ i, i < N →
        (rs.foldr (fun r acc => List.zipWith (· + ·) r acc)
            (List.replicate N (0 : ℚ))).getD i 0
          = (rs.map fun r => r.getD i 0).sum := by
  intro rs
  induction rs with
  | nil =>
    intro _
    refine ⟨List.length_replicate _ _, ?_⟩
    intro i hi
    exact getD_replicate_zero N i hi
  | cons r rs ih =>
    intro hlen
    have hr : r.length = N := hlen r (by simp)
    have ih' := ih fun s hs => hlen s (by simp [hs])
    constructor
    · simp [List.length_zipWith, hr, ih'.1]
    · intro i hi
      simp only [List.foldr_cons, List.map_cons, List.sum_cons]
      rw [getD_zipWith_add _ _ i (by omega) (by rw [ih'.1]; omega), ih'.2 i hi]

theorem take_map_sum_eq_range_sum (gamma : Mat) (i : ℕ) :
    ∀ T, T ≤ gamma.length →
      ((gamma.take T).map fun r => r.getD i 0).sum
        = ∑ t ∈ Finset.range T, mget gamma t i := by
  intro T
  induction T with
  | zero => simp
  | succ n ih =>
    intro hT
    have hn : n < gamma.length := by omega
    have hget : gamma.take (n + 1) = gamma.take n ++ [gamma.get ⟨n, hn⟩] := by
      rw [List.take_succ]
      congr 1
      rw [List.getElem?_eq_getElem hn]
      rfl
    rw [hget, List.map_append, List.sum_append, ih (by omega),
      Finset.sum_range_succ]
    simp [mget, qget, List.getD, List.getElem?_eq_getElem hn]

/-- C4: for every matrix `gamma` with `N` columns and at least `T` rows,
`state_counts(gamma, T)` is the length-`N` vector whose `i`-th entry is the
sum of `gamma[t, i]` over `t = 0 .. T-1`, exactly. -/
theorem state_counts_eq_colsums (gamma : Mat) (T N : ℕ)
    (hrect : ∀ r ∈ gamma, r.length = N) (hne : gamma ≠ [])
    (hT : T ≤ gamma.length) :
    (state_counts gamma T).length = N ∧
    ∀ i, i < N →
      (state_counts gamma T).getD i 0 = ∑ t ∈ Finset.range T, mget gamma t i := by
  have hcols : matCols gamma = N := by
    cases gamma with
    | nil => exact absurd rfl hne
    | cons r rs => simpa [matCols] using hrect r (by simp)
  have htake : ∀ r ∈ gamma.take T, r.length = N := fun r hr =>
    hrect r (List.take_subset T gamma hr)
  have h := colsum_fold N (gamma.take T) htake
  unfold state_counts
  rw [hcols]
  refine ⟨h.1, fun i hi => ?_⟩
  rw [h.2 i hi]
  exact take_map_sum_eq_range_sum gamma i T hT

theorem refreshOnes_spec (st : OnesCache) (n : ℕ) (hok : CacheOk st) :
    (refreshOnes st n).ones = List.replicate n 1 ∧ (refreshOnes st n).size = n := by
  unfold refreshOnes
  split
  · exact ⟨rfl, rfl⟩
  · next h =>
    have hsz : st.size = n := by omega
    exact ⟨by rw [hok, hsz], hsz⟩

theorem state_probabilities_fst (st : OnesCache) (alpha beta : Mat)
    (T? : Option ℕ) (g? : Option Mat) :
    (state_probabilities st alpha beta T? g?).1
      = refreshOnes st (matCols alpha) := by
  unfold state_probabilities
  split <;> rfl

theorem mem_zipWith_mul_length (N : ℕ) :
    ∀ (xs ys : Mat), (∀ x ∈ xs, x.length = N) → (∀ y ∈ ys, y.length = N) →
      ∀ r ∈ List.zipWith (fun a b => List.zipWith (· * ·) a b) xs ys,
        r.length = N := by
  intro xs
  induction xs with
  | nil => intro ys _ _ r hr; exact absurd hr (List.not_mem_nil r)
  | cons x xs ih =>
    intro ys hx hy r hr
    cases ys with
    | nil => exact absurd hr (List.not_mem_nil r)
    | cons y ys =>
      simp only [List.zipWith_cons_cons, List.mem_cons] at hr
      rcases hr with h | h
      · subst h
        rw [List.length_zipWith, hx x (by simp), hy y (by simp)]
        exact Nat.min_self N
      · exact ih ys (fun a ha => hx a (by simp [ha]))
          (fun a ha => hy a (by simp [ha])) r h

theorem bcastTo_self (mat : Mat) (k : ℕ) (hk : ∀ r ∈ mat, r.length = k) :
    bcastTo mat mat.length k = some mat := by
  unfold bcastTo
  rw [if_pos rfl]
  simp only [Option.some_bind]
  rw [if_pos]
  simp only [List.all_eq_true, decide_eq_true_eq]
  exact hk

theorem npMultiply_eq (alpha beta : Mat) (N : ℕ)
    (hlen : alpha.length = beta.length)
    (ha : ∀ r ∈ alpha, r.length = N) (hb : ∀ r ∈ beta, r.length = N)
    (hne : alpha ≠ []) :
    npMultiply alpha beta
      = .ok (List.zipWith (fun a b => List.zipWith (· * ·) a b) alpha beta) := by
  obtain ⟨a0, arest, rfl⟩ : ∃ a0 arest, alpha = a0 :: arest := by
    cases alpha with
    | nil => exact absurd rfl hne
    | cons a0 arest => exact ⟨a0, arest, rfl⟩
  obtain ⟨b0, brest, rfl⟩ : ∃ b0 brest, beta = b0 :: brest := by
    cases beta with
    | nil => simp at hlen
    | cons b0 brest => exact ⟨b0, brest, rfl⟩
  have hca : matCols (a0 :: arest) = N := ha a0 (by simp)
  have hcb : matCols (b0 :: brest) = N := hb b0 (by simp)
  have h1 : bdim (a0 :: arest).length (b0 :: brest).length
      = some (a0 :: arest).length := by
    unfold bdim; rw [if_pos hlen]
  have h2 : bdim (matCols (a0 :: arest)) (matCols (b0 :: brest)) = some N := by
    unfold bdim; rw [hca, hcb, if_pos rfl]
  have h3 : bcastTo (a0 :: arest) (a0 :: arest).length N = some (a0 :: arest) :=
    bcastTo_self _ N ha
  have h4 : bcastTo (b0 :: brest) (a0 :: arest).length N = some (b0 :: brest) := by
    rw [hlen]; exact bcastTo_self _ N hb
  unfold npMultiply
  simp only [h1, h2, h3, h4]

theorem zipWith_ones_sum (r : Row) :
    (List.zipWith (· * ·) r (List.replicate r.length 1)).sum = r.sum := by
  induction r with
  | nil => rfl
  | cons x xs ih => simp [List.replicate_succ, ih]

theorem npDotOnes_eq (g : Mat) (N : ℕ) (hg : ∀ r ∈ g, r.length = N) :
    npDotOnes g (List.replicate N 1) = .ok (g.map fun r => r.sum) := by
  unfold npDotOnes
  rw [if_pos]
  · congr 1
    refine List.map_congr_left fun r hr => ?_
    rw [← hg r hr, zipWith_ones_sum]
  · simp only [List.all_eq_true, decide_eq_true_eq, List.length_replicate]
    exact hg

theorem zipWith_div_self_map (g : Mat) :
    List.zipWith (fun r s => r.map (· / s)) g (g.map fun r => r.sum)
      = g.map fun r => r.map (· / r.sum) := by
  induction g with
  | nil => rfl
  | cons r rs ih => simp [ih]

theorem normalizeRows_eq (st : OnesCache) (g : Mat) (N : ℕ)
    (hst : st.ones = List.replicate N 1) (hg : ∀ r ∈ g, r.length = N) :
    normalizeRows st g = .ok (g.map fun r => r.map (· / r.sum)) := by
  unfold normalizeRows
  rw [hst, npDotOnes_eq g N hg]
  show Except.ok (List.zipWith (fun r s => r.map (· / s)) g (g.map fun r => r.sum))
    = _
  rw [zipWith_div_self_map]

theorem sum_map_div (r : Row) (s : ℚ) : (r.map (· / s)).sum = r.sum / s := by
  induction r with
  | nil => simp
  | cons x xs ih => simp [ih, add_div]

theorem bcastTo_length (mat : Mat) (n k : ℕ) (rows : Mat)
    (h : bcastTo mat n k = some rows) : rows.length = n := by
  unfold bcastTo at h
  split at h
  · next hn =>
    simp only [Option.some_bind] at h
    split at h
    · cases h; exact hn
    · split at h
      · cases h; simpa using hn
      · cases h
  · split at h
    · simp only [Option.some_bind] at h
      split at h
      · cases h; simp
      · split at h
        · cases h; simp
        · cases h
    · cases h

theorem npMultiplyOut_length (a b out g : Mat)
    (h : npMultiplyOut a b out = .ok g) : g.length = out.length := by
  unfold npMultiplyOut at h
  split at h
  · next a' b' ha hb =>
    cases h
    rw [List.length_zipWith, bcastTo_length _ _ _ _ ha,
      bcastTo_length _ _ _ _ hb]
    exact Nat.min_self _
  · cases h

theorem normalizeRows_length (st : OnesCache) (g0 g : Mat)
    (h : normalizeRows st g0 = .ok g) : g.length = g0.length := by
  unfold normalizeRows at h
  split at h
  · cases h
  · next sums hs =>
    cases h
    rw [List.length_zipWith]
    unfold npDotOnes at hs
    split at hs
    · cases hs; simp
    · cases hs

theorem state_probabilities_nobuf (st : OnesCache) (alpha beta : Mat)
    (N : ℕ) (T? : Option ℕ) (hok : CacheOk st)
    (hlen : alpha.length = beta.length)
    (ha : ∀ r ∈ alpha, r.length = N) (hb : ∀ r ∈ beta, r.length = N)
    (hne : alpha ≠ []) :
    (state_probabilities st alpha beta T? none).2
      = .ok ((if T?.getD alpha.length < alpha.length
            then (List.zipWith (fun a b => List.zipWith (· * ·) a b)
                alpha beta).take (T?.getD alpha.length)
            else List.zipWith (fun a b => List.zipWith (· * ·) a b)
                alpha beta).map
          fun r => r.map (· / r.sum)) := by
  have hca : matCols alpha = N := by
    cases alpha with
    | nil => exact absurd rfl hne
    | cons a0 arest => simpa [matCols] using ha a0 (by simp)
  have hprod := npMultiply_eq alpha beta N hlen ha hb hne
  have hplen : (List.zipWith (fun a b => List.zipWith (· * ·) a b)
      alpha beta).length = alpha.length := by
    simp [List.length_zipWith, hlen]
  have hrows := mem_zipWith_mul_length N alpha beta ha hb
  have hst' : (refreshOnes st (matCols alpha)).ones = List.replicate N 1 := by
    rw [hca]; exact (refreshOnes_spec st N hok).1
  have hne' : ¬ alpha.length ≠ beta.length := by simp [hlen]
  have hsel : ∀ r ∈ (if T?.getD alpha.length < alpha.length
      then (List.zipWith (fun a b => List.zipWith (· * ·) a b)
          alpha beta).take (T?.getD alpha.length)
      else List.zipWith (fun a b => List.zipWith (· * ·) a b) alpha beta),
      r.length = N := by
    split
    · intro r hr; exact hrows r (List.take_subset _ _ hr)
    · exact hrows
  simp only [state_probabilities, if_neg hne']
  cases T? with
  | none =>
    simp only [hprod, Option.getD_none, hplen]
    exact normalizeRows_eq _ _ N hst' (by simpa [hplen] using hsel)
  | some t =>
    simp only [hprod, Option.getD_some, hplen]
    exact normalizeRows_eq _ _ N hst' (by simpa [hplen] using hsel)

theorem state_probabilities_buf_len (st : OnesCache) (alpha beta buf : Mat)
    (T? : Option ℕ) (g : Mat)
    (h : (state_probabilities st alpha beta T? (some buf)).2 = .ok g) :
    g.length = buf.length := by
  simp only [state_probabilities] at h
  split at h
  · cases h
  · split at h
    · split at h
      · cases h
      · next g0 hmul =>
        rw [normalizeRows_length _ _ _ h]
        exact npMultiplyOut_length _ _ _ _ hmul
    · split at h
      · cases h
      · next g0 hmul =>
        rw [normalizeRows_length _ _ _ h]
        exact npMultiplyOut_length _ _ _ _ hmul

/-- C9: calling `forward` with `T` omitted while passing a caller-supplied
`alpha` buffer raises, whatever the buffer: line 61 of `api.py` assigns the
default length to the dead local `T_`, so the buffer check at line 67
compares `None > int`, which Python rejects with `TypeError`. -/
theorem forward_buffer_with_default_T_raises (A pobs : Mat) (pi : Row)
    (buf : Mat) :
    forward A pobs pi none (some buf) = .error .typeError := rfl

/-- C1 (the code bug it exposes): `forward([[1]], [[1]], [1])` with `T`
omitted does not behave like `T = pobs.shape[0] = 1`: the omitted length
stays `None` (line 61's dead `T_` assignment) and reaches the
implementation, failing with `TypeError`, while the same call with
`T = 1` succeeds. -/
theorem forward_default_T_is_broken :
    forward [[1]] [[1]] [1] none none = .error .typeError ∧
    (forward [[1]] [[1]] [1] (some 1) none).isOk = true := ⟨rfl, rfl⟩

/-- C2 counterexample: two validation failures of the same kind (requested
`T = 2` against a single-row `pobs`) raise different classes — `TypeError`
from `forward` (line 63), `ValueError` from `backward` (line 97) — so no
single class covers all validation failures. -/
theorem error_classes_differ :
    forward [[1]] [[1]] [1] (some 2) none = .error .typeError ∧
    backward [[1]] [[1]] (some 2) none = .error .valueError ∧
    PyErr.typeError ≠ PyErr.valueError := ⟨rfl, rfl, by decide⟩

/-- C2 amended: `backward`, `state_probabilities`, `transition_counts` and
`sample_path` raise `ValueError` on their validation failures, while
`forward` raises `TypeError` on its. -/
theorem validation_error_classes :
    (∀ (A pobs : Mat) (pi : Row) (t : ℕ) (buf? : Option Mat),
      t > pobs.length → forward A pobs pi (some t) buf? = .error .typeError) ∧
    (∀ (A pobs : Mat) (t : ℕ) (buf? : Option Mat),
      t > pobs.length → backward A pobs (some t) buf? = .error .valueError) ∧
    (∀ (st : OnesCache) (alpha beta : Mat) (T? : Option ℕ) (g? : Option Mat),
      alpha.length ≠ beta.length →
      (state_probabilities st alpha beta T? g?).2 = .error .valueError) ∧
    (∀ (alpha beta A pobs : Mat) (t : ℕ),
      t > pobs.length →
      transition_counts alpha beta A pobs (some t) = .error .valueError) ∧
    (∀ (rand : ℕ → ℚ) (alpha A pobs : Mat) (t : ℕ),
      t > pobs.length ∨ t > alpha.length →
      sample_path rand alpha A pobs (some t) = .error .valueError) := by
  refine ⟨?_, ?_, ?_, ?_, ?_⟩
  · intro A pobs pi t buf? h
    simp [forward, h]
  · intro A pobs t buf? h
    simp [backward, h]
  · intro st alpha beta T? g? h
    simp [state_probabilities, h]
  · intro alpha beta A pobs t h
    simp [transition_counts, h]
  · intro rand alpha A pobs t h
    simp [sample_path, h]

/-- Closed instance of the C2 amendment, every conjunct applied at a
concrete failing call. -/
theorem validation_error_classes_witness :
    forward [[1]] [[1]] [1] (some 3) none = .error .typeError ∧
    backward [[1]] [[1]] (some 3) none = .error .valueError ∧
    (state_probabilities initCache [[1], [1]] [[1]] none none).2
      = .error .valueError ∧
    transition_counts [[1]] [[1]] [[1]] [[1]] (some 3) = .error .valueError ∧
    sample_path (fun _ => 0) [[1]] [[1]] [[1]] (some 3) = .error .valueError :=
  ⟨validation_error_classes.1 [[1]] [[1]] [1] 3 none (by decide),
   validation_error_classes.2.1 [[1]] [[1]] 3 none (by decide),
   validation_error_classes.2.2.1 initCache [[1], [1]] [[1]] none none
     (by decide),
   validation_error_classes.2.2.2.1 [[1]] [[1]] [[1]] [[1]] 3 (by decide),
   validation_error_classes.2.2.2.2 (fun _ => 0) [[1]] [[1]] [[1]] 3
     (Or.inl (by decide))⟩

/-- C3 counterexample: a call of `state_probabilities` that fails its
alpha/beta row-count validation still mutates the module cache — starting
from the import-time state (`_ones_size = 0`), the failing call leaves the
cache rebuilt for `alpha.shape[1] = 1`. -/
theorem failed_validation_mutates_cache :
    (state_probabilities initCache [[1], [1]] [[1]] none none).2
        = .error .valueError ∧
    (state_probabilities initCache [[1], [1]] [[1]] none none).1
        ≠ initCache := by
  exact ⟨rfl, by decide⟩

/-- C3 amended: the ones-cache update (lines 140-144) precedes the
validation, so a failing call leaves the module state unchanged only when
the cache already matches `alpha.shape[1]`; under that proviso a call that
fails the alpha/beta row-count validation changes nothing. -/
theorem failed_validation_cache_stable_when_size_matches
    (st : OnesCache) (alpha beta : Mat) (T? : Option ℕ) (g? : Option Mat)
    (hsz : st.size = matCols alpha) (hlen : alpha.length ≠ beta.length) :
    state_probabilities st alpha beta T? g? = (st, .error .valueError) := by
  simp [state_probabilities, refreshOnes, hsz, hlen]

/-- Closed instance of the C3 amendment at a matching-size cache. -/
theorem failed_validation_cache_stable_witness :
    state_probabilities ⟨[1], 1⟩ [[1], [1]] [[1]] none none
      = (⟨[1], 1⟩, .error .valueError) :=
  failed_validation_cache_stable_when_size_matches ⟨[1], 1⟩ [[1], [1]] [[1]]
    none none (by decide) (by decide)

/-- C7 counterexample: `sample_path` with `T` omitted and an `alpha`
shorter than `pobs` — the effective `T = pobs.shape[0] = 2` exceeds
`alpha`'s single row, yet the call is not rejected with the
invalid-argument `ValueError`: validation never compares a defaulted `T`
against `alpha` (line 284 sits in the `elif` arm), and the failure
surfaces only as the sampler's out-of-range read of `alpha[T-1]`. -/
theorem defaulted_T_skips_alpha_check :
    sample_path (fun _ => 0) [[1]] [[1]] [[1], [1]] none
        = .error .indexError ∧
    sample_path (fun _ => 0) [[1]] [[1]] [[1], [1]] none
        ≠ .error .valueError := by
  refine ⟨rfl, ?_⟩
  intro h
  rw [show sample_path (fun _ => 0) [[1]] [[1]] [[1], [1]] none
      = Except.error PyErr.indexError from rfl] at h
  simp at h

/-- C7 amended: an explicitly supplied `T` exceeding either `alpha`'s or
`pobs`' row count makes `sample_path` fail with `ValueError` before any
sampling; a defaulted `T` equals `pobs`' row count and is never checked
against `alpha`. -/
theorem sample_path_explicit_T_validated (rand : ℕ → ℚ)
    (alpha A pobs : Mat) (t : ℕ)
    (h : t > pobs.length ∨ t > alpha.length) :
    sample_path rand alpha A pobs (some t) = .error .valueError := by
  simp [sample_path, h]

/-- Closed instance of the C7 amendment: explicit `T = 2` against a
single-row `alpha`. -/
theorem sample_path_explicit_T_validated_witness :
    sample_path (fun _ => 0) [[1]] [[1]] [[1], [1]] (some 2)
      = .error .valueError :=
  sample_path_explicit_T_validated (fun _ => 0) [[1]] [[1]] [[1], [1]] 2
    (by decide)

/-- C10: after every call of `state_probabilities` with an `alpha` of `N`
columns — whether it returns or raises — the module cache holds a vector
of exactly `N` ones and records size `N`: the update at lines 140-144 runs
unconditionally before anything can fail.  (No other operation of `api.py`
references the cache; accordingly every other operation of this model is a
pure function of its arguments.) -/
theorem cache_invariant_after_state_probabilities (st : OnesCache)
    (alpha beta : Mat) (T? : Option ℕ) (g? : Option Mat)
    (hok : CacheOk st) :
    (state_probabilities st alpha beta T? g?).1.ones
        = List.replicate (matCols alpha) 1 ∧
    (state_probabilities st alpha beta T? g?).1.size = matCols alpha := by
  rw [state_probabilities_fst]
  exact refreshOnes_spec st (matCols alpha) hok

/-- Closed instance of C10 at a raising call (row-count mismatch): the
cache still ends sized to `alpha.shape[1] = 2`. -/
theorem cache_invariant_after_state_probabilities_witness :
    (state_probabilities initCache [[1, 1], [1, 1]] [[1]] none none).1.ones
        = List.replicate (matCols [[1, 1], [1, 1]]) 1 ∧
    (state_probabilities initCache [[1, 1], [1, 1]] [[1]] none none).1.size
        = matCols [[1, 1], [1, 1]] :=
  cache_invariant_after_state_probabilities initCache [[1, 1], [1, 1]] [[1]]
    none none rfl

/-- C6 counterexample: with an explicit `T = 5` and 2-row `alpha`, `beta`
and no output buffer, the returned `gamma` has 2 rows, not the effective
`T = 5` the claim promises (`api.py` truncates when `T` is smaller, line
157-158, but never extends). -/
theorem gamma_rows_ne_explicit_T :
    ((state_probabilities initCache [[1, 1], [1, 1]] [[1, 1], [1, 1]]
        (some 5) none).2.map List.length) = .ok 2 ∧ (2 : ℕ) ≠ 5 :=
  ⟨rfl, by decide⟩

/-- C6 amended: the effective trajectory length follows the priority
(explicit `T`, else the buffer's row count, else `alpha`'s row count), but
the returned `gamma` has `min(T, alpha's row count)` rows when no buffer
is supplied — an explicit `T` beyond `alpha`'s rows does not extend the
result — and the buffer's own row count when a buffer is supplied. -/
theorem gamma_rows_from_T_priority (st : OnesCache) (alpha beta : Mat)
    (N : ℕ) (T? : Option ℕ) (hok : CacheOk st)
    (hlen : alpha.length = beta.length)
    (ha : ∀ r ∈ alpha, r.length = N) (hb : ∀ r ∈ beta, r.length = N)
    (hne : alpha ≠ []) :
    ((state_probabilities st alpha beta T? none).2.map List.length)
        = .ok (min (T?.getD alpha.length) alpha.length) ∧
    ∀ buf g, (state_probabilities st alpha beta T? (some buf)).2 = .ok g →
      g.length = buf.length := by
  constructor
  · rw [state_probabilities_nobuf st alpha beta N T? hok hlen ha hb hne]
    have hplen : (List.zipWith (fun a b => List.zipWith (· * ·) a b)
        alpha beta).length = alpha.length := by
      simp [List.length_zipWith, hlen]
    simp only [Except.map, List.length_map]
    congr 1
    split
    · next hlt =>
      rw [List.length_take, hplen]
    · next hge =>
      rw [hplen, Nat.min_eq_right (by omega)]
  · intro buf g h
    exact state_probabilities_buf_len st alpha beta buf T? g h

/-- Closed instance of the C6 amendment at `T = 5`, two-row inputs, with
and without a buffer. -/
theorem gamma_rows_from_T_priority_witness :
    ((state_probabilities initCache [[1, 1], [1, 1]] [[1, 1], [1, 1]]
        (some 5) none).2.map List.length)
      = .ok (min ((some 5).getD ([[1, 1], [1, 1]] : Mat).length)
          ([[1, 1], [1, 1]] : Mat).length) ∧
    ∀ buf g,
      (state_probabilities initCache [[1, 1], [1, 1]] [[1, 1], [1, 1]]
          (some 5) (some buf)).2 = .ok g →
      g.length = buf.length :=
  gamma_rows_from_T_priority initCache [[1, 1], [1, 1]] [[1, 1], [1, 1]] 2
    (some 5) rfl rfl (by decide) (by decide) (by decide)

/-- C5: for `alpha` and `beta` of equal row count (and `N` columns) whose
elementwise product has no zero-sum row, `state_probabilities` returns the
row-normalized elementwise product — row `t` is `alpha[t,:] ⊙ beta[t,:]`
divided by that row's sum — and every returned row sums to 1. -/
theorem state_probabilities_normalized (st : OnesCache) (alpha beta : Mat)
    (N : ℕ) (hok : CacheOk st) (hlen : alpha.length = beta.length)
    (ha : ∀ r ∈ alpha, r.length = N) (hb : ∀ r ∈ beta, r.length = N)
    (hne : alpha ≠ [])
    (hnz : ∀ r ∈ List.zipWith (fun a b => List.zipWith (· * ·) a b)
        alpha beta, r.sum ≠ 0) :
    (state_probabilities st alpha beta none none).2
        = .ok ((List.zipWith (fun a b => List.zipWith (· * ·) a b)
            alpha beta).map fun r => r.map (· / r.sum)) ∧
    ∀ r ∈ (List.zipWith (fun a b => List.zipWith (· * ·) a b)
        alpha beta).map (fun r => r.map (· / r.sum)), r.sum = 1 := by
  constructor
  · rw [state_probabilities_nobuf st alpha beta N none hok hlen ha hb hne]
    simp
  · intro r hr
    obtain ⟨r0, hr0, rfl⟩ := List.mem_map.1 hr
    rw [sum_map_div]
    exact div_self (hnz r0 hr0)

/-- Closed instance of C5 at `alpha = beta = [[1, 1]]`. -/
theorem state_probabilities_normalized_witness :
    (state_probabilities initCache [[1, 1]] [[1, 1]] none none).2
        = .ok ((List.zipWith (fun a b => List.zipWith (· * ·) a b)
            ([[1, 1]] : Mat) [[1, 1]]).map fun r => r.map (· / r.sum)) ∧
    ∀ r ∈ (List.zipWith (fun a b => List.zipWith (· * ·) a b)
        ([[1, 1]] : Mat) [[1, 1]]).map (fun r => r.map (· / r.sum)), r.sum = 1 :=
  state_probabilities_normalized initCache [[1, 1]] [[1, 1]] 2 rfl rfl
    (by decide) (by decide) (by decide) (by norm_num)

/-- Closed instance of C4 at `gamma = [[1,2],[3,4],[5,6]]`, `T = 2`. -/
theorem state_counts_eq_colsums_witness :
    (state_counts [[1, 2], [3, 4], [5, 6]] 2).length = 2 ∧
    ∀ i, i < 2 →
      (state_counts [[1, 2], [3, 4], [5, 6]] 2).getD i 0
        = ∑ t ∈ Finset.range 2, mget [[1, 2], [3, 4], [5, 6]] t i :=
  state_counts_eq_colsums [[1, 2], [3, 4], [5, 6]] 2 2
    (by decide) (by decide) (by decide)

/-! Lemmas for the Viterbi optimality proof. -/

theorem le_maxF (f : ℕ → ℚ) : ∀ n, ∀ j, j < n → f j ≤ maxF f n := by
  intro n
  induction n with
  | zero => intro j hj; omega
  | succ m ih =>
    cases m with
    | zero =>
      intro j hj
      have hj0 : j = 0 := by omega
      subst hj0
      exact le_of_eq rfl
    | succ k =>
      intro j hj
      rcases Nat.lt_succ_iff_lt_or_eq.1 hj with h | h
      · exact (ih j h).trans (le_max_left _ _)
      · subst h; exact le_max_right _ _

theorem argmaxF_lt (f : ℕ → ℚ) : ∀ n, 0 < n → argmaxF f n < n := by
  intro n
  induction n with
  | zero => intro h; omega
  | succ m ih =>
    cases m with
    | zero => intro _; exact Nat.zero_lt_one
    | succ k =>
      intro _
      unfold argmaxF
      split
      · omega
      · exact (ih (by omega)).trans (by omega)

theorem maxF_argmax (f : ℕ → ℚ) : ∀ n, 0 < n → maxF f n = f (argmaxF f n) := by
  intro n
  induction n with
  | zero => intro h; omega
  | succ m ih =>
    cases m with
    | zero => intro _; rfl
    | succ k =>
      intro _
      show max (maxF f (k + 1)) (f (k + 1)) = f (argmaxF f (k + 2))
      unfold argmaxF
      split
      · next h => exact max_eq_right (le_of_lt h)
      · next h => rw [max_eq_left (not_lt.1 h)]; exact ih (by omega)

theorem getD_map_range {α : Type} (d : α) (f : ℕ → α) :
    ∀ N i, i < N → (((List.range N).map f).getD i d) = f i := by
  intro N
  induction N with
  | zero => intro i hi; omega
  | succ n ih =>
    intro i hi
    rw [List.range_succ, List.map_append]
    rcases Nat.lt_succ_iff_lt_or_eq.1 hi with h | h
    · rw [List.getD_append _ _ _ _ (by simpa using h)]
      exact ih i h
    · subst h
      rw [List.getD_append_right _ _ _ _ (by simp)]
      simp

theorem qget_map_range (f : ℕ → ℚ) (N i : ℕ) (h : i < N) :
    qget ((List.range N).map f) i = f i :=
  getD_map_range 0 f N i h

theorem getLast?_cons_getD {α : Type} (qs : List α) :
    ∀ (s prev : α), ((s :: qs).getLast?.getD prev) = qs.getLast?.getD s := by
  induction qs with
  | nil => intro s prev; rfl
  | cons y ys ih =>
    intro s prev
    rw [List.getLast?_cons_cons, ih y prev, ih y s]

theorem tailProb_snoc (A : Mat) :
    ∀ (rs : List Row) (qs : List ℕ) (prev : ℕ) (r : Row) (i : ℕ),
      qs.length = rs.length →
      tailProb A prev (rs ++ [r]) (qs ++ [i])
        = tailProb A prev rs qs * mget A (qs.getLast?.getD prev) i * qget r i := by
  intro rs
  induction rs with
  | nil =>
    intro qs prev r i hlen
    have hqs : qs = [] := List.length_eq_zero.1 hlen
    subst hqs
    show mget A prev i * qget r i * 1 = 1 * mget A prev i * qget r i
    ring
  | cons r' rs' ih =>
    intro qs prev r i hlen
    cases qs with
    | nil => simp at hlen
    | cons s qs' =>
      have hlen' : qs'.length = rs'.length := by simpa using hlen
      show mget A prev s * qget r' s * tailProb A s (rs' ++ [r]) (qs' ++ [i]) = _
      rw [ih qs' s r i hlen', getLast?_cons_getD]
      show _ = mget A prev s * qget r' s * tailProb A s rs' qs'
        * mget A (qs'.getLast?.getD s) i * qget r i
      ring

theorem pathProb_snoc (pi : Row) (A : Mat) (rs : List Row) (qs : List ℕ)
    (r : Row) (i : ℕ) (hne : qs ≠ []) (hlen : qs.length = rs.length) :
    pathProb pi A (rs ++ [r]) (qs ++ [i])
      = pathProb pi A rs qs * mget A (qs.getLast?.getD 0) i * qget r i := by
  cases qs with
  | nil => exact absurd rfl hne
  | cons s qs' =>
    cases rs with
    | nil => simp at hlen
    | cons r' rs' =>
      have hlen' : qs'.length = rs'.length := by simpa using hlen
      show qget pi s * qget r' s * tailProb A s (rs' ++ [r]) (qs' ++ [i]) = _
      rw [tailProb_snoc A rs' qs' s r i hlen', getLast?_cons_getD]
      show _ = qget pi s * qget r' s * tailProb A s rs' qs'
        * mget A (qs'.getLast?.getD s) i * qget r i
      ring

theorem vstep_fst (A : Mat) (N : ℕ) (dp : List ℚ × List (List ℕ)) (r : Row) :
    (vstep A N dp r).1
      = (List.range N).map fun i =>
          qget r i * maxF (fun j => qget dp.1 j * mget A j i) N := rfl

theorem vstep_snd (A : Mat) (N : ℕ) (dp : List ℚ × List (List ℕ)) (r : Row) :
    (vstep A N dp r).2
      = ((List.range N).map fun i =>
          argmaxF (fun j => qget dp.1 j * mget A j i) N) :: dp.2 := rfl

theorem revTrace_cons (ψ : List ℕ) (psis : List (List ℕ)) (i : ℕ) :
    revTrace (ψ :: psis) i = i :: revTrace psis (ψ.getD i 0) := rfl

theorem vitInv_base (pi : Row) (A : Mat) (N : ℕ) (r0 : Row) :
    VitInv pi A N [r0]
      ((List.range N).map (fun i => qget pi i * qget r0 i), []) := by
  constructor
  · intro q hlen hval
    obtain ⟨s, rfl⟩ : ∃ s, q = [s] := by
      cases q with
      | nil => simp at hlen
      | cons s qs =>
        cases qs with
        | nil => exact ⟨s, rfl⟩
        | cons y ys => simp at hlen
    have hs : s < N := hval s (by simp)
    show qget pi s * qget r0 s * 1
      ≤ qget ((List.range N).map fun i => qget pi i * qget r0 i) s
    rw [mul_one, qget_map_range _ N s hs]
  · intro i hi
    refine ⟨rfl, ?_, rfl, ?_⟩
    · intro s hs
      have : s = i := by simpa [revTrace] using hs
      subst this; exact hi
    · show qget pi i * qget r0 i * 1 = _
      rw [mul_one, qget_map_range _ N i hi]

theorem vitInv_step (pi : Row) (A : Mat) (N : ℕ) (done : List Row)
    (dp : List ℚ × List (List ℕ)) (r : Row) (hN : 0 < N)
    (hA : ∀ i, i < N → ∀ j, j < N → 0 ≤ mget A i j)
    (hr : ∀ i, i < N → 0 ≤ qget r i)
    (hne : done ≠ []) (hinv : VitInv pi A N done dp) :
    VitInv pi A N (done ++ [r]) (vstep A N dp r) := by
  obtain ⟨hub, hach⟩ := hinv
  constructor
  · intro q hlen hval
    have hql : q.length = done.length + 1 := by simpa using hlen
    have hqne : q ≠ [] := by
      intro h; rw [h] at hql; simp at hql
    have hqdec : q.dropLast ++ [q.getLast hqne] = q :=
      List.dropLast_append_getLast hqne
    set i := q.getLast hqne with hi
    have hiN : i < N := hval i (List.getLast_mem hqne)
    set qd := q.dropLast with hqddef
    have hqdlen : qd.length = done.length := by
      rw [hqddef, List.length_dropLast]; omega
    have hqdne : qd ≠ [] := by
      intro h
      rw [h] at hqdlen
      exact hne (List.length_eq_zero.1 hqdlen.symm)
    have hqdsub : ∀ s ∈ qd, s < N := fun s hs =>
      hval s (List.dropLast_subset q hs)
    set j := qd.getLast?.getD 0 with hjdef
    have hjmem : j ∈ qd := by
      rw [hjdef, List.getLast?_eq_getLast qd hqdne]
      exact List.getLast_mem hqdne
    have hjN : j < N := hqdsub j hjmem
    rw [← hqdec,
      pathProb_snoc pi A done qd r i hqdne hqdlen,
      List.getLast?_concat, vstep_fst]
    simp only [Option.getD_some]
    rw [qget_map_range _ N i hiN, ← hjdef]
    have h1 : pathProb pi A done qd ≤ qget dp.1 j := hub qd hqdlen hqdsub
    have h2 : pathProb pi A done qd * mget A j i ≤ qget dp.1 j * mget A j i :=
      mul_le_mul_of_nonneg_right h1 (hA j hjN i hiN)
    have h3 : qget dp.1 j * mget A j i
        ≤ maxF (fun j' => qget dp.1 j' * mget A j' i) N := le_maxF _ N j hjN
    calc pathProb pi A done qd * mget A j i * qget r i
        ≤ qget dp.1 j * mget A j i * qget r i :=
          mul_le_mul_of_nonneg_right h2 (hr i hiN)
      _ ≤ maxF (fun j' => qget dp.1 j' * mget A j' i) N * qget r i :=
          mul_le_mul_of_nonneg_right h3 (hr i hiN)
      _ = qget r i * maxF (fun j' => qget dp.1 j' * mget A j' i) N :=
          mul_comm _ _
  · intro i hiN
    have hψ : ((List.range N).map fun i' =>
        argmaxF (fun j => qget dp.1 j * mget A j i') N).getD i 0
      = argmaxF (fun j => qget dp.1 j * mget A j i) N :=
      getD_map_range 0 _ N i hiN
    set jstar := argmaxF (fun j => qget dp.1 j * mget A j i) N with hjs
    have hjsN : jstar < N := argmaxF_lt _ N hN
    obtain ⟨hplen, hpval, hplast, hpprob⟩ := hach jstar hjsN
    set p := (revTrace dp.2 jstar).reverse with hpdef
    have hpne : p ≠ [] := by
      intro h
      rw [h] at hplen
      exact hne (List.length_eq_zero.1 hplen.symm)
    have htr : (revTrace ((vstep A N dp r).2) i).reverse = p ++ [i] := by
      rw [vstep_snd, revTrace_cons, hψ, List.reverse_cons, ← hpdef]
    rw [htr]
    refine ⟨?_, ?_, ?_, ?_⟩
    · simp [hplen]
    · intro s hs
      rcases List.mem_append.1 hs with h | h
      · exact hpval s h
      · have : s = i := by simpa using h
        subst this; exact hiN
    · rw [List.getLast?_concat]; rfl
    · rw [pathProb_snoc pi A done p r i hpne hplen, hpprob, hplast, vstep_fst,
        qget_map_range _ N i hiN,
        maxF_argmax (fun j => qget dp.1 j * mget A j i) N hN]
      simp only [← hjs]
      ring

theorem vitInv_fold (pi : Row) (A : Mat) (N : ℕ) (hN : 0 < N)
    (hA : ∀ i, i < N → ∀ j, j < N → 0 ≤ mget A i j) :
    ∀ (rows done : List Row) (dp : List ℚ × List (List ℕ)),
      (∀ row ∈ rows, ∀ i, i < N → 0 ≤ qget row i) → done ≠ [] →
      VitInv pi A N done dp →
      VitInv pi A N (done ++ rows) (rows.foldl (vstep A N) dp) := by
  intro rows
  induction rows with
  | nil => intro done dp _ _ h; simpa using h
  | cons r rs ih =>
    intro done dp hrows hne hinv
    have hstep := vitInv_step pi A N done dp r hN hA
      (hrows r (by simp)) hne hinv
    have hrec := ih (done ++ [r]) (vstep A N dp r)
      (fun row hrow => hrows row (by simp [hrow])) (by simp) hstep
    simpa [List.append_assoc] using hrec

/-- C8: the path returned by `viterbi(A, pobs, pi)` is a most probable
hidden-state path: with at least one hidden state and nonnegative entries
in `A` and `pobs` (as the data model requires of probabilities), every
state sequence `q` of length `T = pobs`' row count satisfies
`pathProb q ≤ pathProb (viterbi A pobs pi)`, where `pathProb` is the joint
probability `pi[q0]·pobs[0,q0]·∏ A[q(t-1),q(t)]·pobs[t,q(t)]`. -/
theorem viterbi_optimal (A pobs : Mat) (pi : Row) (q : List ℕ)
    (hN : 0 < A.length)
    (hA : ∀ i, i < A.length → ∀ j, j < A.length → 0 ≤ mget A i j)
    (hpobs : ∀ row ∈ pobs, ∀ i, i < A.length → 0 ≤ qget row i)
    (hq : q.length = pobs.length) (hqs : ∀ s ∈ q, s < A.length) :
    pathProb pi A pobs q ≤ pathProb pi A pobs (viterbi A pobs pi) := by
  cases pobs with
  | nil =>
    have hq0 : q = [] := List.length_eq_zero.1 (by simpa using hq)
    subst hq0
    exact le_refl _
  | cons r0 rest =>
    set N := A.length with hNdef
    have hbase := vitInv_base pi A N r0
    have hfold := vitInv_fold pi A N hN hA rest [r0]
      ((List.range N).map (fun i => qget pi i * qget r0 i), [])
      (fun row hrow => hpobs row (by simp [hrow])) (by simp) hbase
    set dp := rest.foldl (vstep A N)
      ((List.range N).map (fun i => qget pi i * qget r0 i), []) with hdp
    set istar := argmaxF (fun i => qget dp.1 i) N with histardef
    have histar : istar < N := argmaxF_lt _ N hN
    obtain ⟨hplen, hpval, hplast, hpprob⟩ := hfold.2 istar histar
    have hvit : viterbi A (r0 :: rest) pi = (revTrace dp.2 istar).reverse := rfl
    have hqne : q ≠ [] := by
      intro h; rw [h] at hq; simp at hq
    have hlast_mem : q.getLast?.getD 0 ∈ q := by
      rw [List.getLast?_eq_getLast q hqne]
      exact List.getLast_mem hqne
    have hlastN : q.getLast?.getD 0 < N := hqs _ hlast_mem
    have h1 : pathProb pi A (r0 :: rest) q ≤ qget dp.1 (q.getLast?.getD 0) :=
      hfold.1 q (by simpa using hq) hqs
    have h3 : maxF (fun i => qget dp.1 i) N = qget dp.1 istar := by
      rw [maxF_argmax _ N hN]
    have h4 : pathProb pi A (r0 :: rest) ((revTrace dp.2 istar).reverse)
        = qget dp.1 istar := hpprob
    calc pathProb pi A (r0 :: rest) q
        ≤ qget dp.1 (q.getLast?.getD 0) := h1
      _ ≤ maxF (fun i => qget dp.1 i) N := le_maxF _ N _ hlastN
      _ = qget dp.1 istar := h3
      _ = pathProb pi A (r0 :: rest) ((revTrace dp.2 istar).reverse) := h4.symm
      _ = pathProb pi A (r0 :: rest) (viterbi A (r0 :: rest) pi) := by
          rw [hvit]

/-- Closed instance of C8: a concrete two-state model and the competing
path `[0, 0]`. -/
theorem viterbi_optimal_witness :
    pathProb [1, 1] [[1, 1], [1, 1]] [[1, 0], [0, 1]] [0, 0]
      ≤ pathProb [1, 1] [[1, 1], [1, 1]] [[1, 0], [0, 1]]
        (viterbi [[1, 1], [1, 1]] [[1, 0], [0, 1]] [1, 1]) :=
  viterbi_optimal [[1, 1], [1, 1]] [[1, 0], [0, 1]] [1, 1] [0, 0]
    (by decide) (by decide) (by decide) (by decide) (by decide)

end BhmmHidden
